import Mathlib

/-!
A shallow embedding of the dominant-color extraction pipeline of
src/app.py: the functions calculate_wcss, find_optimal_k_elbow,
get_dominant_colors and rgb_to_hex, together with the glue that turns a
fitted cluster center into the displayed hex code.

The k-means fitting routine (sklearn.cluster.KMeans) and the knee
detector (kneed.KneeLocator) are third-party numeric libraries, not code
of this repository: definitions that call them are parameterized over the
library call's outcome. The parts of the library behaviour the code
relies on concretely are embedded concretely: predict assigns every
pixel to its nearest center (first index on ties, as numpy argmin does),
and a one-cluster fit has the exact inertia sum of squared distances to
the mean. Pixels and centers are modelled as rational triples; channel
values in the images at hand are integers 0..255, which float32 carries
exactly.
-/

namespace App

/-- A pixel or cluster center: an RGB triple, stored as exact rationals. -/
abbrev Pixel := ℚ × ℚ × ℚ

/-! ## Hex formatting: rgb_to_hex (src/app.py lines 38-48)

Python renders each channel with the format spec 02x: lowercase hex
digits of the absolute value, a minus sign for negatives, zero-padded on
the left to overall width 2 (the sign counts toward the width). The
digit loop below mirrors that rendering with explicit fuel, so it is
structurally recursive and kernel-computable. -/

/-- The lowercase hex digit for a value below 16, by character code as
CPython's formatter produces it: 48 is the code of the zero digit and 87
plus ten is the code of the letter a. -/
def hexDigitChar (n : Nat) : Char :=
  if n < 10 then Char.ofNat (48 + n) else Char.ofNat (87 + n)

def hexChars : List Char := (List.range 16).map hexDigitChar

def natHexDigitsAux : Nat → Nat → List Char → List Char
  | 0, _, ds => ds
  | fuel + 1, n, ds =>
    if n < 16 then hexDigitChar n :: ds
    else natHexDigitsAux fuel (n / 16) (hexDigitChar (n % 16) :: ds)

/-- The lowercase hex digits of a natural number, most significant first. -/
def natHexDigits (n : Nat) : List Char := natHexDigitsAux (n + 1) n []

def padZeros (w : Nat) (ds : List Char) : List Char :=
  List.replicate (w - ds.length) '0' ++ ds

/-- Python's format spec 02x applied to an integer. -/
def pyHex02 (n : ℤ) : List Char :=
  if n < 0 then '-' :: padZeros 1 (natHexDigits n.natAbs)
  else padZeros 2 (natHexDigits n.toNat)

/-- rgb_to_hex from src/app.py: the f-string concatenating a hash mark
with the 02x renderings of the three channels. The int(...) coercions in
the source are identities here because the pipeline already hands this
function integer channel values. -/
def rgb_to_hex (r g b : ℤ) : String :=
  String.mk ('#' :: (pyHex02 r ++ pyHex02 g ++ pyHex02 b))

def isHexDigit (c : Char) : Bool := hexChars.contains c

/-- Whether a string is a hash mark followed by exactly six hex digits. -/
def isHexColorB (s : String) : Bool :=
  match s.data with
  | [] => false
  | c :: rest => c == '#' && rest.length == 6 && rest.all isHexDigit

/-- Truncation toward zero, the conversion numpy applies in
np.array(sorted_colors, dtype=int) on src/app.py line 36. -/
def truncQ (q : ℚ) : ℤ := if q < 0 then ⌈q⌉ else ⌊q⌋

def truncTriple (c : Pixel) : ℤ × ℤ × ℤ := (truncQ c.1, truncQ c.2.1, truncQ c.2.2)

/-- The hex code the app displays for a fitted cluster center: the
center's channels pass through the dtype=int conversion of
get_dominant_colors and then through rgb_to_hex. -/
def displayed_hex (c : Pixel) : String :=
  rgb_to_hex (truncQ c.1) (truncQ c.2.1) (truncQ c.2.2)

/-- Modelled from the spec: the spec says each channel is rounded to the
nearest integer before exposure as a display code. This definition
follows the spec's words, for comparison with displayed_hex which
follows the source. -/
def spec_rounded_hex (c : Pixel) : String :=
  rgb_to_hex (round c.1) (round c.2.1) (round c.2.2)

/-! ### Facts about the hex rendering -/

theorem natHexDigits_small (n : Nat) (h : n < 16) :
    natHexDigits n = [hexDigitChar n] := by
  simp [natHexDigits, natHexDigitsAux, h]

theorem natHexDigitsAux_step_small (fuel n : Nat) (ds : List Char) (h : n < 16) :
    natHexDigitsAux (fuel + 1) n ds = hexDigitChar n :: ds := by
  simp only [natHexDigitsAux, if_pos h]

theorem natHexDigitsAux_step_big (fuel n : Nat) (ds : List Char) (h : ¬ n < 16) :
    natHexDigitsAux (fuel + 1) n ds =
      natHexDigitsAux fuel (n / 16) (hexDigitChar (n % 16) :: ds) := by
  simp only [natHexDigitsAux, if_neg h]

theorem natHexDigits_two (n : Nat) (h16 : 16 ≤ n) (h : n < 256) :
    natHexDigits n = [hexDigitChar (n / 16), hexDigitChar (n % 16)] := by
  have hdiv : n / 16 < 16 := Nat.div_lt_of_lt_mul (by omega)
  obtain ⟨m, rfl⟩ : ∃ m, n = m + 1 := ⟨n - 1, by omega⟩
  rw [natHexDigits, natHexDigitsAux_step_big _ _ _ (by omega)]
  obtain ⟨f, rfl⟩ : ∃ f, m = f + 1 := ⟨m - 1, by omega⟩
  rw [natHexDigitsAux_step_small _ _ _ hdiv]

theorem hexDigitChar_hex (n : Nat) (h : n < 16) :
    isHexDigit (hexDigitChar n) = true := by
  interval_cases n <;> decide

theorem pyHex02_byte (n : ℤ) (h0 : 0 ≤ n) (h255 : n ≤ 255) :
    (pyHex02 n).length = 2 ∧ ∀ c ∈ pyHex02 n, isHexDigit c = true := by
  have hneg : ¬ n < 0 := by omega
  have hlt : n.toNat < 256 := by omega
  rw [pyHex02, if_neg hneg]
  by_cases hsmall : n.toNat < 16
  · rw [natHexDigits_small _ hsmall]
    refine ⟨rfl, ?_⟩
    intro c hc
    simp [padZeros] at hc
    rcases hc with h1 | h2
    · rw [h1]; decide
    · rw [h2]; exact hexDigitChar_hex _ hsmall
  · rw [natHexDigits_two _ (by omega) hlt]
    have hdiv : n.toNat / 16 < 16 := Nat.div_lt_of_lt_mul (by omega)
    have hmod : n.toNat % 16 < 16 := Nat.mod_lt _ (by omega)
    refine ⟨rfl, ?_⟩
    intro c hc
    simp [padZeros] at hc
    rcases hc with h1 | h2
    · rw [h1]; exact hexDigitChar_hex _ hdiv
    · rw [h2]; exact hexDigitChar_hex _ hmod

theorem rgb_to_hex_valid (r g b : ℤ)
    (hr0 : 0 ≤ r) (hr : r ≤ 255) (hg0 : 0 ≤ g) (hg : g ≤ 255)
    (hb0 : 0 ≤ b) (hb : b ≤ 255) :
    isHexColorB (rgb_to_hex r g b) = true := by
  obtain ⟨hrl, hrh⟩ := pyHex02_byte r hr0 hr
  obtain ⟨hgl, hgh⟩ := pyHex02_byte g hg0 hg
  obtain ⟨hbl, hbh⟩ := pyHex02_byte b hb0 hb
  show (('#' == '#') &&
      ((pyHex02 r ++ pyHex02 g ++ pyHex02 b).length == 6) &&
      (pyHex02 r ++ pyHex02 g ++ pyHex02 b).all isHexDigit) = true
  have hlen : (pyHex02 r ++ pyHex02 g ++ pyHex02 b).length = 6 := by
    simp [List.length_append, hrl, hgl, hbl]
  rw [hlen]
  simp only [Bool.and_eq_true, List.all_eq_true]
  refine ⟨⟨rfl, rfl⟩, ?_⟩
  intro c hc
  simp only [List.mem_append] at hc
  rcases hc with (hc | hc) | hc
  · exact hrh c hc
  · exact hgh c hc
  · exact hbh c hc

/-- C10: rgb_to_hex performs no range clamping or validation. Under the
precondition that every channel is an integer in 0..255 the output is a
hash mark followed by six lowercase hex digits, and for the out-of-range
channel 256 the output is not of that form. -/
theorem c10_rgb_to_hex_unclamped :
    (∀ r g b : ℤ, 0 ≤ r → r ≤ 255 → 0 ≤ g → g ≤ 255 → 0 ≤ b → b ≤ 255 →
      isHexColorB (rgb_to_hex r g b) = true) ∧
    isHexColorB (rgb_to_hex 256 0 0) = false := by
  constructor
  · intro r g b hr0 hr hg0 hg hb0 hb
    exact rgb_to_hex_valid r g b hr0 hr hg0 hg hb0 hb
  · decide

/-! ### C8: the displayed hex code of a cluster center -/

theorem truncQ_of_nonneg (q : ℚ) (h : 0 ≤ q) : truncQ q = ⌊q⌋ := by
  rw [truncQ, if_neg (not_lt.mpr h)]

/-- C8 counterexample: a cluster center with channel value 9/10 (all
channels in 0..255) is displayed as hex 000000 by the code, while
rounding to the nearest integer as the claim states would give hex
010000; the dtype=int conversion truncates instead of rounding. -/
theorem c8_counterexample :
    displayed_hex ((9 : ℚ)/10, 0, 0) ≠ spec_rounded_hex ((9 : ℚ)/10, 0, 0) := by
  have ht : truncQ ((9 : ℚ)/10) = 0 := by
    rw [truncQ_of_nonneg _ (by norm_num)]
    norm_num [Int.floor_eq_zero_iff, Set.mem_Ico]
  have ht0 : truncQ (0 : ℚ) = 0 := by
    rw [truncQ_of_nonneg _ le_rfl]
    norm_num
  have hr : round ((9 : ℚ)/10) = 1 := by
    rw [round_eq]
    norm_num
  have h1 : displayed_hex ((9 : ℚ)/10, 0, 0) = rgb_to_hex 0 0 0 := by
    rw [displayed_hex]
    rw [show ((9 : ℚ)/10, (0 : ℚ), (0 : ℚ)).1 = (9 : ℚ)/10 from rfl]
    rw [ht, ht0]
  have h2 : spec_rounded_hex ((9 : ℚ)/10, 0, 0) = rgb_to_hex 1 0 0 := by
    rw [spec_rounded_hex]
    rw [show ((9 : ℚ)/10, (0 : ℚ), (0 : ℚ)).1 = (9 : ℚ)/10 from rfl]
    rw [hr, round_zero]
  rw [h1, h2]
  decide

/-- C8 amended: each channel of a cluster center is truncated toward
zero (the floor, for the nonnegative values at hand) by the dtype=int
conversion, not rounded to the nearest integer; the result is still a
hash mark followed by six lowercase hex digits, and the three example
colors of the claim, whose channels are exact integers, display as the
claim says. -/
theorem c8_amended_truncated_hex :
    (∀ r g b : ℚ, 0 ≤ r → r ≤ 255 → 0 ≤ g → g ≤ 255 → 0 ≤ b → b ≤ 255 →
      displayed_hex (r, g, b) = rgb_to_hex ⌊r⌋ ⌊g⌋ ⌊b⌋ ∧
      isHexColorB (displayed_hex (r, g, b)) = true) ∧
    displayed_hex (0, 0, 0) = String.mk ['#', '0', '0', '0', '0', '0', '0'] ∧
    displayed_hex (255, 255, 255) = String.mk ['#', 'f', 'f', 'f', 'f', 'f', 'f'] ∧
    displayed_hex (255, 0, 0) = String.mk ['#', 'f', 'f', '0', '0', '0', '0'] := by
  have key : ∀ r g b : ℚ, 0 ≤ r → r ≤ 255 → 0 ≤ g → g ≤ 255 → 0 ≤ b → b ≤ 255 →
      displayed_hex (r, g, b) = rgb_to_hex ⌊r⌋ ⌊g⌋ ⌊b⌋ ∧
      isHexColorB (displayed_hex (r, g, b)) = true := by
    intro r g b hr0 hr hg0 hg hb0 hb
    have he : displayed_hex (r, g, b) = rgb_to_hex ⌊r⌋ ⌊g⌋ ⌊b⌋ := by
      rw [displayed_hex, truncQ_of_nonneg _ hr0, truncQ_of_nonneg _ hg0,
        truncQ_of_nonneg _ hb0]
    refine ⟨he, ?_⟩
    rw [he]
    have h255 : (⌊(255 : ℚ)⌋ : ℤ) = 255 := by norm_num
    exact rgb_to_hex_valid _ _ _
      (Int.floor_nonneg.mpr hr0) (h255 ▸ Int.floor_le_floor hr)
      (Int.floor_nonneg.mpr hg0) (h255 ▸ Int.floor_le_floor hg)
      (Int.floor_nonneg.mpr hb0) (h255 ▸ Int.floor_le_floor hb)
  refine ⟨key, ?_, ?_, ?_⟩
  · rw [(key 0 0 0 le_rfl (by norm_num) le_rfl (by norm_num) le_rfl (by norm_num)).1]
    norm_num
    decide
  · rw [(key 255 255 255 (by norm_num) le_rfl (by norm_num) le_rfl (by norm_num) le_rfl).1]
    norm_num
    decide
  · rw [(key 255 0 0 (by norm_num) le_rfl le_rfl (by norm_num) le_rfl (by norm_num)).1]
    norm_num
    decide

/-! ## Elbow selection: find_optimal_k_elbow (src/app.py lines 72-89)

The KneeLocator call is a third-party primitive; its outcome on a given
curve is either an exception (modelled as Except.error), no knee
(Except.ok none) or a knee value (Except.ok (some e)). The function's
own logic is embedded exactly: the detected elbow is promoted with
max 2, a missing knee gives 5, and the try/except block converts any
detector exception into the warning-plus-5 path, so the function is
total and never re-raises. -/

def find_optimal_k_elbow
    (kneeDetector : List Nat → List ℚ → Except Unit (Option Nat))
    (wcssValues : List ℚ) (kRange : List Nat) : Nat :=
  match kneeDetector kRange wcssValues with
  | Except.error _ => 5
  | Except.ok none => 5
  | Except.ok (some e) => max 2 e

/-- C1: for every curve and every detector outcome the selected k is at
least 2, and a knee detected at k equal to 1 is promoted to exactly 2. -/
theorem c1_optimal_k_at_least_two
    (kneeDetector : List Nat → List ℚ → Except Unit (Option Nat))
    (wcssValues : List ℚ) (kRange : List Nat) :
    2 ≤ find_optimal_k_elbow kneeDetector wcssValues kRange ∧
    (kneeDetector kRange wcssValues = Except.ok (some 1) →
      find_optimal_k_elbow kneeDetector wcssValues kRange = 2) := by
  constructor
  · rcases hd : kneeDetector kRange wcssValues with e | o
    · simp [find_optimal_k_elbow, hd]
    · rcases o with _ | e
      · simp [find_optimal_k_elbow, hd]
      · simp only [find_optimal_k_elbow, hd]
        exact Nat.le_max_left 2 e
  · intro h
    simp [find_optimal_k_elbow, h]

/-- C2: when the knee detector raises or reports no knee, the selected k
is exactly 5; the exception is absorbed (the function is total by
construction, so nothing propagates to the caller). -/
theorem c2_fallback_is_five
    (kneeDetector : List Nat → List ℚ → Except Unit (Option Nat))
    (wcssValues : List ℚ) (kRange : List Nat)
    (h : (∃ e, kneeDetector kRange wcssValues = Except.error e) ∨
      kneeDetector kRange wcssValues = Except.ok none) :
    find_optimal_k_elbow kneeDetector wcssValues kRange = 5 := by
  rw [find_optimal_k_elbow]
  rcases h with ⟨e, he⟩ | he <;> rw [he]

theorem c2_witness :
    find_optimal_k_elbow (fun _ _ => Except.error ()) [10, 5, 3] [1, 2, 3] = 5 ∧
    find_optimal_k_elbow (fun _ _ => Except.ok none) [10, 5, 3] [1, 2, 3] = 5 :=
  ⟨c2_fallback_is_five _ _ _ (Or.inl ⟨(), rfl⟩),
   c2_fallback_is_five _ _ _ (Or.inr rfl)⟩

/-! ## Cost curve: calculate_wcss (src/app.py lines 50-70)

The function draws sample indices with np.random.choice from numpy's
global generator, which the code never seeds: the draw is an input of
the embedding (the list idx of chosen indices), and a run of the
function corresponds to one valid draw. The k-means fit for each k is
the library primitive, a function of the sampled pixel sequence and k
(its own initialization is seeded with random_state 42, so it is a
function); a fit that raises is modelled by Except. -/

def sampleSize (n : Nat) : Nat := min n 100000

/-- Which index lists np.random.choice(n, sampleSize n, replace=False)
can return: sampleSize n distinct indices below n. -/
def ValidDraw (n : Nat) (idx : List Nat) : Prop :=
  idx.length = sampleSize n ∧ idx.Nodup ∧ ∀ i ∈ idx, i < n

def sampledPixels (pixels : List Pixel) (idx : List Nat) : List Pixel :=
  idx.map (fun i => pixels.getD i (0, 0, 0))

/-- A fit primitive that never raises, as an Except-valued one. -/
def liftFit (fit : List Pixel → Nat → ℚ) : List Pixel → Nat → Except Unit ℚ :=
  fun s k => Except.ok (fit s k)

/-- calculate_wcss from src/app.py: sample once, then fit k-means for
each k from 1 to max_k inclusive and collect the inertias in order. A
library exception at any k aborts the whole call (there is no try block
here). -/
def calculate_wcss (fitInertia : List Pixel → Nat → Except Unit ℚ)
    (pixels : List Pixel) (max_k : Nat) (idx : List Nat) :
    Except Unit (List ℚ) :=
  (List.range' 1 max_k).mapM (fun k => fitInertia (sampledPixels pixels idx) k)

theorem mapM_liftFit (l : List Nat) (f : Nat → ℚ) :
    l.mapM (fun k => Except.ok (f k) : Nat → Except Unit ℚ) =
      Except.ok (l.map f) := by
  induction l with
  | nil => rfl
  | cons x xs ih =>
    rw [List.mapM_cons, ih]
    rfl

theorem calculate_wcss_ok (fit : List Pixel → Nat → ℚ)
    (pixels : List Pixel) (max_k : Nat) (idx : List Nat) :
    calculate_wcss (liftFit fit) pixels max_k idx =
      Except.ok ((List.range' 1 max_k).map
        (fun k => fit (sampledPixels pixels idx) k)) := by
  rw [calculate_wcss]
  exact mapM_liftFit _ _

/-- C4: on a non-empty pixel set with max_k at least 1 and a fit that
raises nowhere, calculate_wcss returns exactly max_k cost values, and
the i-th value (0-based) is the inertia of the fit with i+1 clusters on
the sampled pixels, so the curve lists k = 1..max_k in ascending order. -/
theorem c4_cost_curve_shape (fit : List Pixel → Nat → ℚ)
    (pixels : List Pixel) (max_k : Nat) (idx : List Nat)
    (hne : pixels ≠ []) (hk : 1 ≤ max_k) :
    ∃ curve, calculate_wcss (liftFit fit) pixels max_k idx = Except.ok curve ∧
      curve.length = max_k ∧
      ∀ i, (h : i < curve.length) →
        curve.get ⟨i, h⟩ = fit (sampledPixels pixels idx) (i + 1) := by
  refine ⟨_, calculate_wcss_ok fit pixels max_k idx, ?_, ?_⟩
  · simp
  · intro i h
    have hi : i < max_k := by simpa using h
    simp [List.get_eq_getElem, Nat.add_comm 1 i]

theorem c4_witness :
    ∃ curve, calculate_wcss (liftFit (fun s k => (s.length * k : ℚ)))
        [((0 : ℚ), 0, 0)] 3 [0] = Except.ok curve ∧
      curve.length = 3 ∧
      ∀ i, (h : i < curve.length) →
        curve.get ⟨i, h⟩ =
          (((sampledPixels [((0 : ℚ), 0, 0)] [0]).length : ℚ) * ((i + 1 : ℕ) : ℚ)) :=
  c4_cost_curve_shape (fun s k => (s.length * k : ℚ)) [((0 : ℚ), 0, 0)] 3 [0]
    (by decide) (by omega)

/-! ## Palette extraction: get_dominant_colors (src/app.py lines 10-36)

The KMeans fit supplies the centers; the code then predicts a label for
every pixel (nearest center, lowest index on ties, as argmin breaks
ties), counts labels with collections.Counter, and lists the centers in
most_common order. Counter.most_common is a stable descending sort by
count of the counter's keys, and the keys stand in insertion order,
which is the order of each label's first occurrence in the label
sequence. The embedding spells that out: occKeys collects keys in first
occurrence order and sortByCountDesc is a stable insertion sort by
descending count. -/

def sqdist (p q : Pixel) : ℚ :=
  (p.1 - q.1) * (p.1 - q.1) + (p.2.1 - q.2.1) * (p.2.1 - q.2.1) +
    (p.2.2 - q.2.2) * (p.2.2 - q.2.2)

/-- The index of the center nearest to p, lowest index winning ties. -/
def nearestIdx (centers : List Pixel) (p : Pixel) : Nat :=
  (List.range centers.length).foldl
    (fun best i =>
      if sqdist (centers.getD i (0, 0, 0)) p < sqdist (centers.getD best (0, 0, 0)) p
      then i else best) 0

/-- kmeans.predict on the full pixel list: one label per pixel. -/
def predictLabels (centers : List Pixel) (pixels : List Pixel) : List Nat :=
  pixels.map (nearestIdx centers)

def insertKey (ks : List Nat) (k : Nat) : List Nat :=
  if k ∈ ks then ks else ks ++ [k]

/-- The distinct labels in order of first occurrence: the key order of
collections.Counter built from the label sequence. -/
def occKeys (labels : List Nat) : List Nat := labels.foldl insertKey []

/-- Insert x after every element of count at least cnt x: one step of a
stable insertion sort by descending count. -/
def insertByCount (cnt : Nat → Nat) : List Nat → Nat → List Nat
  | [], x => [x]
  | y :: ys, x =>
    if cnt y < cnt x then x :: y :: ys else y :: insertByCount cnt ys x

def sortByCountDesc (cnt : Nat → Nat) (keys : List Nat) : List Nat :=
  keys.foldl (insertByCount cnt) []

/-- The label keys in Counter.most_common order: stable descending sort
by count over the first occurrence key order. -/
def most_common_keys (labels : List Nat) : List Nat :=
  sortByCountDesc (fun k => labels.count k) (occKeys labels)

/-- get_dominant_colors from src/app.py, given the fitted centers: the
centers listed in most_common label order, each converted to integers by
np.array(sorted_colors, dtype=int), which truncates toward zero. -/
def get_dominant_colors (centers : List Pixel) (pixels : List Pixel) :
    List (ℤ × ℤ × ℤ) :=
  (most_common_keys (predictLabels centers pixels)).map
    (fun i => truncTriple (centers.getD i (0, 0, 0)))

/-- get_dominant_colors with the library fit call in front of it: a fit
exception propagates uncaught (there is no try block in the source). -/
def get_dominant_colorsE
    (fitCenters : List Pixel → Nat → Except Unit (List Pixel))
    (pixels : List Pixel) (k : Nat) : Except Unit (List (ℤ × ℤ × ℤ)) :=
  Except.map (fun centers => get_dominant_colors centers pixels)
    (fitCenters pixels k)

/-! ### C9: where validation errors actually come from -/

/-- C9 counterexample: with max_k below 1 and a non-empty pixel set,
calculate_wcss performs no fit at all (even a fit primitive that always
raises is never consulted) and returns an empty curve successfully,
rather than failing as the claim states. -/
theorem c9_counterexample :
    calculate_wcss (fun _ _ => Except.error ()) [((0 : ℚ), 0, 0)] 0 [0] =
      Except.ok [] := rfl

/-- C9 amended: calculate_wcss itself validates nothing. With max_k
below 1 it returns an empty curve and no error; with max_k at least 1 a
clustering-library exception on the first fit (which is what an empty
pixel set provokes) aborts the call, propagating uncaught; and in
get_dominant_colors a library exception from the fit (which is what
k below 1 or an empty image provokes) likewise propagates uncaught. -/
theorem c9_amended_error_paths :
    (∀ (fitInertia : List Pixel → Nat → Except Unit ℚ)
      (pixels : List Pixel) (idx : List Nat),
      calculate_wcss fitInertia pixels 0 idx = Except.ok []) ∧
    (∀ (fitInertia : List Pixel → Nat → Except Unit ℚ)
      (pixels : List Pixel) (max_k : Nat) (idx : List Nat) (e : Unit),
      1 ≤ max_k → fitInertia (sampledPixels pixels idx) 1 = Except.error e →
      calculate_wcss fitInertia pixels max_k idx = Except.error e) ∧
    (∀ (fitCenters : List Pixel → Nat → Except Unit (List Pixel))
      (pixels : List Pixel) (k : Nat) (e : Unit),
      fitCenters pixels k = Except.error e →
      get_dominant_colorsE fitCenters pixels k = Except.error e) := by
  refine ⟨fun f p idx => rfl, ?_, ?_⟩
  · intro f pixels max_k idx e hk hf
    obtain ⟨m, rfl⟩ : ∃ m, max_k = m + 1 := ⟨max_k - 1, by omega⟩
    rw [calculate_wcss, List.range'_succ, List.mapM_cons]
    simp only [hf]
    rfl
  · intro f pixels k e hf
    rw [get_dominant_colorsE, hf]
    rfl

/-! ### Ordering and counting facts about most_common_keys -/

theorem mem_insertByCount (cnt : Nat → Nat) (l : List Nat) (x a : Nat) :
    a ∈ insertByCount cnt l x ↔ a = x ∨ a ∈ l := by
  induction l with
  | nil => simp [insertByCount]
  | cons y ys ih =>
    simp only [insertByCount]
    split
    · simp [List.mem_cons]
    · simp only [List.mem_cons, ih]
      tauto

theorem insertByCount_perm (cnt : Nat → Nat) (l : List Nat) (x : Nat) :
    (insertByCount cnt l x).Perm (x :: l) := by
  induction l with
  | nil => exact List.Perm.refl _
  | cons y ys ih =>
    simp only [insertByCount]
    split
    · exact List.Perm.refl _
    · exact (ih.cons y).trans (List.Perm.swap x y ys)

theorem insertByCount_pairwise (cnt : Nat → Nat) (x : Nat) :
    ∀ l : List Nat, l.Pairwise (fun a b => cnt b ≤ cnt a) →
      (insertByCount cnt l x).Pairwise (fun a b => cnt b ≤ cnt a) := by
  intro l
  induction l with
  | nil =>
    intro _
    simp [insertByCount]
  | cons y ys ih =>
    intro hl
    rw [List.pairwise_cons] at hl
    obtain ⟨hy, hys⟩ := hl
    simp only [insertByCount]
    split
    · rename_i h
      rw [List.pairwise_cons]
      refine ⟨?_, List.pairwise_cons.mpr ⟨hy, hys⟩⟩
      intro b hb
      rcases List.mem_cons.mp hb with rfl | hb
      · omega
      · have := hy b hb
        omega
    · rename_i h
      rw [List.pairwise_cons]
      refine ⟨?_, ih hys⟩
      intro b hb
      rcases (mem_insertByCount cnt ys x b).mp hb with rfl | hb
      · omega
      · exact hy b hb

theorem insertByCount_filter (cnt : Nat → Nat) (c : Nat) (x : Nat) :
    ∀ l : List Nat, l.Pairwise (fun a b => cnt b ≤ cnt a) →
      (insertByCount cnt l x).filter (fun k => cnt k == c) =
        l.filter (fun k => cnt k == c) ++
          (if cnt x == c then [x] else []) := by
  intro l
  induction l with
  | nil =>
    intro _
    simp only [insertByCount, List.filter_nil, List.nil_append]
    rw [List.filter_cons, List.filter_nil]
  | cons y ys ih =>
    intro hl
    rw [List.pairwise_cons] at hl
    obtain ⟨hy, hys⟩ := hl
    simp only [insertByCount]
    split
    · rename_i h
      by_cases hxc : cnt x = c
      · have hnil : (y :: ys).filter (fun k => cnt k == c) = [] := by
          rw [List.filter_eq_nil_iff]
          intro a ha
          have hle : cnt a ≤ cnt y := by
            rcases List.mem_cons.mp ha with rfl | ha
            · exact le_rfl
            · exact hy a ha
          have : cnt a ≠ c := by omega
          simpa using this
        rw [List.filter_cons, if_pos (by simpa using hxc), hnil,
          if_pos (by simpa using hxc)]
        rfl
      · rw [List.filter_cons, if_neg (by simpa using hxc),
          if_neg (by simpa using hxc), List.append_nil]
    · rename_i h
      rw [List.filter_cons, List.filter_cons, ih hys]
      split
      · rw [List.cons_append]
      · rfl

theorem sortFold_sorted_filter (cnt : Nat → Nat) :
    ∀ (l acc : List Nat), acc.Pairwise (fun a b => cnt b ≤ cnt a) →
      (l.foldl (insertByCount cnt) acc).Pairwise (fun a b => cnt b ≤ cnt a) ∧
      ∀ c, (l.foldl (insertByCount cnt) acc).filter (fun k => cnt k == c) =
        acc.filter (fun k => cnt k == c) ++ l.filter (fun k => cnt k == c) := by
  intro l
  induction l with
  | nil =>
    intro acc h
    exact ⟨h, fun c => by simp⟩
  | cons y ys ih =>
    intro acc h
    rw [List.foldl_cons]
    obtain ⟨hs, hf⟩ := ih (insertByCount cnt acc y) (insertByCount_pairwise cnt y acc h)
    refine ⟨hs, fun c => ?_⟩
    rw [hf c, insertByCount_filter cnt c y acc h, List.filter_cons]
    split
    · simp
    · simp

theorem sortFold_perm (cnt : Nat → Nat) :
    ∀ (l acc : List Nat), (l.foldl (insertByCount cnt) acc).Perm (acc ++ l) := by
  intro l
  induction l with
  | nil =>
    intro acc
    simp
  | cons y ys ih =>
    intro acc
    rw [List.foldl_cons]
    have h1 := ih (insertByCount cnt acc y)
    have h2 : (insertByCount cnt acc y ++ ys).Perm ((y :: acc) ++ ys) :=
      (insertByCount_perm cnt acc y).append_right ys
    exact h1.trans (h2.trans List.perm_middle.symm)

theorem occKeys_aux :
    ∀ (l acc : List Nat), acc.Nodup →
      (l.foldl insertKey acc).Nodup ∧
      ∀ a, a ∈ l.foldl insertKey acc ↔ a ∈ acc ∨ a ∈ l := by
  intro l
  induction l with
  | nil =>
    intro acc h
    exact ⟨h, fun a => by simp⟩
  | cons y ys ih =>
    intro acc h
    rw [List.foldl_cons]
    have hnd : (insertKey acc y).Nodup := by
      rw [insertKey]
      split
      · exact h
      · rename_i hy
        simp [List.nodup_append, h, hy]
    have hmem : ∀ a, a ∈ insertKey acc y ↔ a ∈ acc ∨ a = y := by
      intro a
      rw [insertKey]
      split
      · rename_i hy
        constructor
        · exact Or.inl
        · rintro (ha | rfl)
          · exact ha
          · exact hy
      · simp
    obtain ⟨h1, h2⟩ := ih (insertKey acc y) hnd
    refine ⟨h1, fun a => ?_⟩
    rw [h2 a, hmem a, List.mem_cons]
    tauto

theorem occKeys_nodup (labels : List Nat) : (occKeys labels).Nodup :=
  (occKeys_aux labels [] List.nodup_nil).1

theorem occKeys_mem (labels : List Nat) (a : Nat) :
    a ∈ occKeys labels ↔ a ∈ labels := by
  have h := (occKeys_aux labels [] List.nodup_nil).2 a
  simpa [occKeys] using h

theorem occKeys_perm_dedup (labels : List Nat) :
    (occKeys labels).Perm labels.dedup :=
  (List.perm_ext_iff_of_nodup (occKeys_nodup labels) labels.nodup_dedup).mpr
    (fun a => by rw [occKeys_mem, List.mem_dedup])

theorem most_common_keys_perm (labels : List Nat) :
    (most_common_keys labels).Perm (occKeys labels) := by
  have h := sortFold_perm (fun k => labels.count k) (occKeys labels) []
  simpa [most_common_keys, sortByCountDesc] using h

/-- C6: the per-cluster populations behind the returned ordering, the
counts of each distinct predicted label, sum to the total pixel count. -/
theorem c6_populations_sum_to_pixel_count (centers pixels : List Pixel) :
    ((most_common_keys (predictLabels centers pixels)).map
      (fun k => (predictLabels centers pixels).count k)).sum = pixels.length := by
  have hp : (most_common_keys (predictLabels centers pixels)).Perm
      (predictLabels centers pixels).dedup :=
    (most_common_keys_perm _).trans (occKeys_perm_dedup _)
  rw [(hp.map (fun k => (predictLabels centers pixels).count k)).sum_eq,
    List.sum_map_count_dedup_eq_length, predictLabels, List.length_map]

/-- C5 amended: the returned colors are ordered by population
non-increasing, and among equal populations the order is the label's
first occurrence order in the pixel sequence (Counter's insertion
order), not the clustering library's center index order: the equal-count
keys of the result, read in order, are exactly the equal-count keys of
the first occurrence order. -/
theorem c5_amended_population_order (centers pixels : List Pixel) :
    (most_common_keys (predictLabels centers pixels)).Pairwise
      (fun a b => (predictLabels centers pixels).count b ≤
        (predictLabels centers pixels).count a) ∧
    ∀ c, (most_common_keys (predictLabels centers pixels)).filter
        (fun k => (predictLabels centers pixels).count k == c) =
      (occKeys (predictLabels centers pixels)).filter
        (fun k => (predictLabels centers pixels).count k == c) := by
  obtain ⟨hs, hf⟩ := sortFold_sorted_filter
    (fun k => (predictLabels centers pixels).count k)
    (occKeys (predictLabels centers pixels)) [] List.Pairwise.nil
  constructor
  · simpa [most_common_keys, sortByCountDesc] using hs
  · intro c
    have h := hf c
    simpa [most_common_keys, sortByCountDesc] using h

/-- C5 counterexample: centers (10,0,0) and (0,0,0) with pixels (0,0,0)
then (10,0,0). Both clusters have population 1, yet the palette lists
center index 1 first, because the first pixel's label is 1: ties follow
first occurrence in the pixel sequence, not the library's center
ordering, under which index 0 would come first. -/
theorem c5_counterexample :
    (predictLabels [((10 : ℚ), 0, 0), ((0 : ℚ), 0, 0)]
        [((0 : ℚ), 0, 0), ((10 : ℚ), 0, 0)]).count 0 =
      (predictLabels [((10 : ℚ), 0, 0), ((0 : ℚ), 0, 0)]
        [((0 : ℚ), 0, 0), ((10 : ℚ), 0, 0)]).count 1 ∧
    get_dominant_colors [((10 : ℚ), 0, 0), ((0 : ℚ), 0, 0)]
        [((0 : ℚ), 0, 0), ((10 : ℚ), 0, 0)] =
      [((0 : ℤ), 0, 0), ((10 : ℤ), 0, 0)] ∧
    get_dominant_colors [((10 : ℚ), 0, 0), ((0 : ℚ), 0, 0)]
        [((0 : ℚ), 0, 0), ((10 : ℚ), 0, 0)] ≠
      [((10 : ℤ), 0, 0), ((0 : ℤ), 0, 0)] := by
  have hlab : predictLabels [((10 : ℚ), 0, 0), ((0 : ℚ), 0, 0)]
      [((0 : ℚ), 0, 0), ((10 : ℚ), 0, 0)] = [1, 0] := by
    norm_num [predictLabels, nearestIdx, sqdist, List.range_succ]
  have hkeys : most_common_keys [1, 0] = [1, 0] := by decide
  have ht0 : truncQ (0 : ℚ) = 0 := by
    rw [truncQ_of_nonneg _ le_rfl]
    norm_num
  have ht10 : truncQ (10 : ℚ) = 10 := by
    rw [truncQ_of_nonneg _ (by norm_num)]
    norm_num
  have hout : get_dominant_colors [((10 : ℚ), 0, 0), ((0 : ℚ), 0, 0)]
      [((0 : ℚ), 0, 0), ((10 : ℚ), 0, 0)] =
      [((0 : ℤ), 0, 0), ((10 : ℤ), 0, 0)] := by
    rw [get_dominant_colors, hlab, hkeys]
    simp [truncTriple, ht0, ht10]
  refine ⟨by rw [hlab]; decide, hout, ?_⟩
  rw [hout]
  decide

/-! ### C7: how many colors come back -/

theorem foldl_choice_lt (n : Nat) :
    ∀ (l : List Nat) (acc : Nat) (g : Nat → Nat → Nat),
      acc < n → (∀ i ∈ l, i < n) → (∀ b i, g b i = b ∨ g b i = i) →
      l.foldl g acc < n := by
  intro l
  induction l with
  | nil =>
    intro acc g ha _ _
    simpa using ha
  | cons x xs ih =>
    intro acc g ha hl hg
    rw [List.foldl_cons]
    refine ih (g acc x) g ?_ (fun i hi => hl i (List.mem_cons_of_mem x hi)) hg
    rcases hg acc x with h | h <;> rw [h]
    · exact ha
    · exact hl x (List.mem_cons_self x xs)

theorem nearestIdx_lt (centers : List Pixel) (p : Pixel)
    (h : 0 < centers.length) : nearestIdx centers p < centers.length := by
  refine foldl_choice_lt centers.length (List.range centers.length) 0 _ h
    (fun i hi => List.mem_range.mp hi) ?_
  intro b i
  by_cases hc : sqdist (centers.getD i (0, 0, 0)) p <
      sqdist (centers.getD b (0, 0, 0)) p
  · right
    exact if_pos hc
  · left
    exact if_neg hc

theorem predictLabels_lt (centers pixels : List Pixel)
    (h : 0 < centers.length) :
    ∀ a ∈ predictLabels centers pixels, a < centers.length := by
  intro a ha
  obtain ⟨p, _, rfl⟩ := List.mem_map.mp ha
  exact nearestIdx_lt centers p h

theorem nodup_bounded_length (l : List Nat) (k : Nat) (hnd : l.Nodup)
    (hb : ∀ a ∈ l, a < k) : l.length ≤ k := by
  have h1 : l.toFinset ⊆ Finset.range k := by
    intro a ha
    rw [Finset.mem_range]
    exact hb a (List.mem_toFinset.mp ha)
  have h2 := Finset.card_le_card h1
  rw [Finset.card_range] at h2
  rwa [List.toFinset_card_of_nodup hnd] at h2

/-- C7: with k fitted centers (k at least 1) the palette never errors
and has at most k entries, one per distinct predicted label; when every
one of the k centers is the nearest for some pixel, which is the
library's guarantee whenever the requested k does not exceed the number
of distinct pixel colors, the palette has exactly k entries. -/
theorem c7_palette_length (centers pixels : List Pixel) (k : Nat)
    (hk : centers.length = k) (h1 : 1 ≤ k) :
    (get_dominant_colors centers pixels).length ≤ k ∧
    ((∀ j, j < k → j ∈ predictLabels centers pixels) →
      (get_dominant_colors centers pixels).length = k) := by
  have hpos : 0 < centers.length := by omega
  have hbound : ∀ a ∈ predictLabels centers pixels, a < k := by
    intro a ha
    have := predictLabels_lt centers pixels hpos a ha
    omega
  have hlen : (get_dominant_colors centers pixels).length =
      (occKeys (predictLabels centers pixels)).length := by
    rw [get_dominant_colors, List.length_map,
      (most_common_keys_perm (predictLabels centers pixels)).length_eq]
  constructor
  · rw [hlen]
    exact nodup_bounded_length _ k (occKeys_nodup _)
      (fun a ha => hbound a ((occKeys_mem _ a).mp ha))
  · intro hsurj
    rw [hlen]
    have hperm : (occKeys (predictLabels centers pixels)).Perm (List.range k) :=
      (List.perm_ext_iff_of_nodup (occKeys_nodup _) (List.nodup_range k)).mpr
        (fun a => by
          rw [occKeys_mem, List.mem_range]
          exact ⟨fun ha => hbound a ha, fun ha => hsurj a ha⟩)
    rw [hperm.length_eq, List.length_range]

theorem c7_witness :
    (get_dominant_colors [((0 : ℚ), 0, 0), ((10 : ℚ), 0, 0)]
      [((0 : ℚ), 0, 0), ((10 : ℚ), 0, 0)]).length ≤ 2 ∧
    (get_dominant_colors [((0 : ℚ), 0, 0), ((10 : ℚ), 0, 0)]
      [((0 : ℚ), 0, 0), ((10 : ℚ), 0, 0)]).length = 2 := by
  have h := c7_palette_length [((0 : ℚ), 0, 0), ((10 : ℚ), 0, 0)]
    [((0 : ℚ), 0, 0), ((10 : ℚ), 0, 0)] 2 rfl (by omega)
  refine ⟨h.1, h.2 ?_⟩
  have hlab : predictLabels [((0 : ℚ), 0, 0), ((10 : ℚ), 0, 0)]
      [((0 : ℚ), 0, 0), ((10 : ℚ), 0, 0)] = [0, 1] := by
    norm_num [predictLabels, nearestIdx, sqdist, List.range_succ]
  intro j hj
  rw [hlab]
  interval_cases j <;> decide

/-! ## C3: determinism of calculate_wcss across runs

The k-means initialization inside calculate_wcss is seeded with
random_state 42, so each fit is a function of the sampled pixel
sequence and k. But np.random.choice draws the sample indices from
numpy's global generator, which the code never seeds, so two runs on
identical input may use different valid draws. wcss1 below is the
exact inertia of a one-cluster fit, which is what the library computes
at k equal to 1: the single center is the mean of the points and the
inertia is the sum of squared distances to it. -/

def psum (l : List Pixel) : Pixel :=
  l.foldr (fun p acc => (p.1 + acc.1, p.2.1 + acc.2.1, p.2.2 + acc.2.2)) (0, 0, 0)

def meanPixel (l : List Pixel) : Pixel :=
  ((psum l).1 / l.length, (psum l).2.1 / l.length, (psum l).2.2 / l.length)

/-- The inertia of a one-cluster k-means fit. -/
def wcss1 (l : List Pixel) : ℚ := (l.map (fun p => sqdist p (meanPixel l))).sum

/-- What the claim asserts of the code: the cost curve depends only on
the pixel set and max_k, identically across the random draws two runs
may make. -/
def CurveRunDeterministic : Prop :=
  ∀ (fit : List Pixel → Nat → ℚ) (pixels : List Pixel) (max_k : Nat)
    (idx1 idx2 : List Nat), pixels ≠ [] →
    ValidDraw pixels.length idx1 → ValidDraw pixels.length idx2 →
    calculate_wcss (liftFit fit) pixels max_k idx1 =
      calculate_wcss (liftFit fit) pixels max_k idx2

theorem psum_replicate (n : Nat) (c : Pixel) :
    psum (List.replicate n c) =
      ((n : ℚ) * c.1, (n : ℚ) * c.2.1, (n : ℚ) * c.2.2) := by
  induction n with
  | zero => simp [psum]
  | succ m ih =>
    rw [List.replicate_succ]
    show (c.1 + (psum (List.replicate m c)).1,
      c.2.1 + (psum (List.replicate m c)).2.1,
      c.2.2 + (psum (List.replicate m c)).2.2) = _
    rw [ih]
    refine Prod.ext ?_ (Prod.ext ?_ ?_) <;> push_cast <;> ring

theorem meanPixel_replicate (n : Nat) (hn : n ≠ 0) (c : Pixel) :
    meanPixel (List.replicate n c) = c := by
  have hq : (n : ℚ) ≠ 0 := Nat.cast_ne_zero.mpr hn
  rw [meanPixel, psum_replicate, List.length_replicate]
  refine Prod.ext ?_ (Prod.ext ?_ ?_) <;>
    exact mul_div_cancel_left₀ _ hq

theorem sqdist_self (p : Pixel) : sqdist p p = 0 := by
  simp [sqdist]

theorem wcss1_replicate (n : Nat) (c : Pixel) :
    wcss1 (List.replicate n c) = 0 := by
  cases n with
  | zero => rfl
  | succ m =>
    rw [wcss1, meanPixel_replicate (m + 1) (Nat.succ_ne_zero m) c,
      List.map_replicate, sqdist_self, List.sum_replicate, smul_zero]

theorem sqdist_nonneg (p q : Pixel) : 0 ≤ sqdist p q := by
  rw [sqdist]
  have h1 := mul_self_nonneg (p.1 - q.1)
  have h2 := mul_self_nonneg (p.2.1 - q.2.1)
  have h3 := mul_self_nonneg (p.2.2 - q.2.2)
  linarith

theorem sum_zero_of_nonneg (l : List ℚ) (h : ∀ x ∈ l, 0 ≤ x)
    (hs : l.sum = 0) : ∀ x ∈ l, x = 0 := by
  induction l with
  | nil => simp
  | cons y ys ih =>
    rw [List.sum_cons] at hs
    have hy : 0 ≤ y := h y (List.mem_cons_self y ys)
    have hys : 0 ≤ ys.sum :=
      List.sum_nonneg (fun x hx => h x (List.mem_cons_of_mem y hx))
    intro x hx
    rcases List.mem_cons.mp hx with rfl | hx
    · linarith
    · exact ih (fun z hz => h z (List.mem_cons_of_mem y hz)) (by linarith) x hx

theorem sqdist_eq_zero (p q : Pixel) (h : sqdist p q = 0) : p = q := by
  obtain ⟨p1, p2, p3⟩ := p
  obtain ⟨q1, q2, q3⟩ := q
  simp only [sqdist] at h
  have n1 := mul_self_nonneg (p1 - q1)
  have n2 := mul_self_nonneg (p2 - q2)
  have n3 := mul_self_nonneg (p3 - q3)
  have h1 : p1 - q1 = 0 := mul_self_eq_zero.mp (by linarith)
  have h2 : p2 - q2 = 0 := mul_self_eq_zero.mp (by linarith)
  have h3 : p3 - q3 = 0 := mul_self_eq_zero.mp (by linarith)
  refine Prod.ext ?_ (Prod.ext ?_ ?_) <;> dsimp <;> linarith

theorem wcss1_zero_mem (l : List Pixel) (h : wcss1 l = 0) :
    ∀ p ∈ l, p = meanPixel l := by
  intro p hp
  refine sqdist_eq_zero _ _ ?_
  refine sum_zero_of_nonneg _ ?_ h _ (List.mem_map_of_mem _ hp)
  intro x hx
  obtain ⟨a, _, rfl⟩ := List.mem_map.mp hx
  exact sqdist_nonneg _ _

/-- The image whose two runs disagree: 100000 black pixels and one
white pixel, so the bounded sample of size 100000 cannot hold all of
them and the draw decides which ones the curve is computed from. -/
def pixBig : List Pixel := List.replicate 100000 ((0 : ℚ), 0, 0) ++ [((255 : ℚ), 255, 255)]

/-- One possible draw: the first 100000 indices, all black pixels. -/
def idxA : List Nat := List.range 100000

/-- Another possible draw: indices 1 to 100000, which include white. -/
def idxB : List Nat := List.range' 1 100000

theorem pixBig_length : pixBig.length = 100001 := by
  rw [pixBig, List.length_append, List.length_replicate]
  rfl

theorem pixBig_getD_black (i : Nat) (h : i < 100000) :
    pixBig.getD i (0, 0, 0) = ((0 : ℚ), 0, 0) := by
  have hl : i < (List.replicate 100000 ((0 : ℚ), (0 : ℚ), (0 : ℚ))).length := by
    rw [List.length_replicate]
    exact h
  rw [pixBig, List.getD_append _ _ _ _ hl, List.getD_eq_getElem _ _ hl,
    List.getElem_replicate]

theorem pixBig_getD_white :
    pixBig.getD 100000 (0, 0, 0) = ((255 : ℚ), 255, 255) := by
  have hl : (List.replicate 100000 ((0 : ℚ), (0 : ℚ), (0 : ℚ))).length ≤ 100000 := by
    rw [List.length_replicate]
  rw [pixBig, List.getD_append_right _ _ _ _ hl, List.length_replicate]
  rfl

theorem map_const_on (l : List Nat) (f : Nat → Pixel) (c : Pixel)
    (h : ∀ i ∈ l, f i = c) : l.map f = List.replicate l.length c := by
  induction l with
  | nil => rfl
  | cons x xs ih =>
    rw [List.map_cons, h x (List.mem_cons_self x xs),
      ih (fun i hi => h i (List.mem_cons_of_mem x hi)),
      List.length_cons, List.replicate_succ]

theorem sampled_idxA :
    sampledPixels pixBig idxA = List.replicate 100000 ((0 : ℚ), 0, 0) := by
  rw [sampledPixels, idxA,
    map_const_on _ _ ((0 : ℚ), 0, 0)
      (fun i hi => pixBig_getD_black i (List.mem_range.mp hi)),
    List.length_range]

theorem sampled_idxB :
    sampledPixels pixBig idxB =
      List.replicate 99999 ((0 : ℚ), 0, 0) ++ [((255 : ℚ), 255, 255)] := by
  have hsplit : List.range' 1 100000 = List.range' 1 99999 ++ [100000] := by
    have h : List.range' 1 (99999 + 1) = List.range' 1 99999 ++ [1 + 1 * 99999] :=
      List.range'_concat 1 99999
    norm_num at h
    exact h
  rw [sampledPixels, idxB, hsplit, List.map_append,
    map_const_on _ _ ((0 : ℚ), 0, 0) ?_, List.length_range']
  · rw [List.map_singleton, pixBig_getD_white]
  · intro i hi
    obtain ⟨j, hj, rfl⟩ := List.mem_range'.mp hi
    exact pixBig_getD_black _ (by omega)

theorem wcss1_sampled_idxB_ne_zero : wcss1 (sampledPixels pixBig idxB) ≠ 0 := by
  intro h
  have hblack : ((0 : ℚ), (0 : ℚ), (0 : ℚ)) ∈ sampledPixels pixBig idxB := by
    rw [sampled_idxB]
    exact List.mem_append_left _ (List.mem_replicate.mpr ⟨by norm_num, rfl⟩)
  have hwhite : ((255 : ℚ), (255 : ℚ), (255 : ℚ)) ∈ sampledPixels pixBig idxB := by
    rw [sampled_idxB]
    exact List.mem_append_right _ (List.mem_singleton.mpr rfl)
  have h1 := wcss1_zero_mem _ h _ hblack
  have h2 := wcss1_zero_mem _ h _ hwhite
  rw [← h2] at h1
  exact absurd h1 (by decide)

/-- C3 counterexample: on the 100001-pixel image pixBig the draws idxA
and idxB are both valid samples of size min(100001, 100000), yet with
the library's own one-cluster inertia the two runs produce different
cost curves (0 for the all-black sample, positive for the one holding
the white pixel), so the claimed run-to-run determinism fails: the
sampling is not driven by a fixed seed. -/
theorem c3_counterexample : ¬ CurveRunDeterministic := by
  intro hdet
  have hA : ValidDraw pixBig.length idxA := by
    refine ⟨?_, List.nodup_range 100000, ?_⟩
    · rw [pixBig_length, idxA, List.length_range]
      rfl
    · intro i hi
      rw [pixBig_length]
      have := List.mem_range.mp hi
      omega
  have hB : ValidDraw pixBig.length idxB := by
    refine ⟨?_, List.nodup_range' 1 100000, ?_⟩
    · rw [pixBig_length, idxB, List.length_range']
      rfl
    · intro i hi
      rw [pixBig_length]
      obtain ⟨j, hj, rfl⟩ := List.mem_range'.mp hi
      omega
  have hne : pixBig ≠ [] := by
    intro h
    have := pixBig_length
    rw [h] at this
    simp at this
  have heq := hdet (fun s _ => wcss1 s) pixBig 1 idxA idxB hne hA hB
  rw [calculate_wcss_ok, calculate_wcss_ok] at heq
  have hlist : [wcss1 (sampledPixels pixBig idxA)] =
      [wcss1 (sampledPixels pixBig idxB)] := by
    simpa using heq
  have hval : wcss1 (sampledPixels pixBig idxB) = 0 := by
    have h0 : wcss1 (sampledPixels pixBig idxA) = 0 := by
      rw [sampled_idxA]
      exact wcss1_replicate _ _
    have := List.head_eq_of_cons_eq hlist
    rw [← this, h0]
  exact wcss1_sampled_idxB_ne_zero hval

/-- C3 amended: the k-means initialization is seeded (random_state 42),
so the cost curve is a function of the sampled pixel sequence; two runs
agree whenever their unseeded sampling draws select the same pixel
sequence, and only the sampling draw can make runs on identical input
differ. -/
theorem c3_amended_deterministic_given_sample
    (fitInertia : List Pixel → Nat → Except Unit ℚ)
    (pixels : List Pixel) (max_k : Nat) (idx1 idx2 : List Nat)
    (h : sampledPixels pixels idx1 = sampledPixels pixels idx2) :
    calculate_wcss fitInertia pixels max_k idx1 =
      calculate_wcss fitInertia pixels max_k idx2 := by
  rw [calculate_wcss, calculate_wcss, h]

theorem c3_witness :
    calculate_wcss (liftFit (fun s _ => wcss1 s)) [((0 : ℚ), 0, 0), ((1 : ℚ), 2, 3)]
        2 [0, 1] =
      calculate_wcss (liftFit (fun s _ => wcss1 s)) [((0 : ℚ), 0, 0), ((1 : ℚ), 2, 3)]
        2 [0, 1] :=
  c3_amended_deterministic_given_sample _ _ 2 [0, 1] [0, 1] rfl

end App
